import Mathlib

/-!
Shallow embedding of the polynomial library in `isj_proj6_xsmahe01.py`.

A `Polynomial` object stores a list `components : List Int` of coefficients
indexed by ascending degree (`components[i]` is the coefficient of `x^i`).
Every method of the Python class is embedded as a function on the raw
components list.  Numeric inputs of evaluation are modelled by `ℚ`.
-/

namespace IsjProj6

/-- Embeds `Polynomial.__init__` on the branch taking a single list argument:
the components become that very list. -/
def init_from_list (l : List Int) : List Int := l

/-- Embeds `Polynomial.__init__` on the variadic branch (at least one non-list
positional argument): the components become the list of the arguments. -/
def init_from_args (args : List Int) : List Int := args

/-- Embeds `Polynomial.__init__` on the keyword branch: keys are degrees
(the Python key `xN` is modelled by the number `N`), missing degrees get 0,
and the length is one more than the highest supplied degree. -/
def init_from_kwargs (kwargs : List (Nat × Int)) : List Int :=
  let highest_degree := kwargs.foldl (fun h p => if p.1 > h then p.1 else h) 0
  (List.range (highest_degree + 1)).map (fun degree =>
    match kwargs.lookup degree with
    | some c => c
    | none => 0)

/-- Embeds `Polynomial.__init__` with no arguments at all: components `[0]`. -/
def init_default : List Int := [0]

/-- Embeds `Polynomial.__count_value`: direct summation of
`coefficient * x ** degree` over the enumerated components. -/
def count_value (components : List Int) (x_value : ℚ) : ℚ :=
  components.enum.foldl (fun accumulator p => accumulator + (p.2 : ℚ) * x_value ^ p.1) 0

/-- Embeds `Polynomial.at_value`: the optional second argument is an `Option`.
With `none` it returns the value at `x_1`; with `some x_2` it returns the
value at `x_2` minus the value at `x_1`. -/
def at_value (components : List Int) (x_1 : ℚ) (x_2 : Option ℚ) : ℚ :=
  let value_1 := count_value components x_1
  match x_2 with
  | none => value_1
  | some x => count_value components x - value_1

/-- Embeds `Polynomial.derivative`: starts from a zero list one shorter than
the input and writes `coefficient * degree` at slot `degree - 1` for every
enumerated component of positive degree. -/
def derivative (components : List Int) : List Int :=
  components.enum.foldl
    (fun result p => if p.1 = 0 then result else result.set (p.1 - 1) (p.2 * (p.1 : Int)))
    (List.replicate (components.length - 1) 0)

/-- The in-place accumulation `l[i] += v` used by `__multiply_components`. -/
def addAt (l : List Int) (i : Nat) (v : Int) : List Int :=
  l.set i (l.getD i 0 + v)

/-- Embeds `Polynomial.__multiply_components`: a zero list of length
`len(self) + len(base) - 1` accumulated by
`result[outer + inner] += base[outer] * self[inner]` over both index ranges. -/
def multiply_components (self_components base_components : List Int) : List Int :=
  (List.range base_components.length).foldl
    (fun result outer_degree =>
      (List.range self_components.length).foldl
        (fun inner_result inner_degree =>
          addAt inner_result (outer_degree + inner_degree)
            (base_components.getD outer_degree 0 * self_components.getD inner_degree 0))
        result)
    (List.replicate (self_components.length + base_components.length - 1) 0)

/-- The string of one printed term of `Polynomial.__str__`: sign mark,
then the coefficient numeral unless the magnitude is 1 at positive degree,
then the variable part chosen by the degree. -/
def term_string (degree : Nat) (coefficient : Int) : String :=
  (if coefficient > 0 then " + " else " - ") ++
  (if coefficient.natAbs ≠ 1 ∨ degree = 0 then toString coefficient.natAbs else "") ++
  (if degree > 1 then "x^" ++ toString degree else if degree = 1 then "x" else "")

/-- The loop of `Polynomial.__str__`: iterates over the reversed enumerated
components (degree descending), skipping zero coefficients, appending each
printed term to the accumulator string. -/
def string_form (components : List Int) : String :=
  components.enum.reverse.foldl
    (fun acc p => if p.2 = 0 then acc else acc ++ term_string p.1 p.2) ""

/-- The final slicing of `Polynomial.__str__`: drop the leading `" + "`
(3 characters) when the string starts with `" +"`, else the single leading
space.  Python slicing on the character list, as all output is ASCII. -/
def strip_leading (s : String) : String :=
  if s.data.take 2 = [' ', '+'] then String.mk (s.data.drop 3) else String.mk (s.data.drop 1)

/-- Embeds `Polynomial.__str__`: all-zero components render as `"0"`;
otherwise the built string loses its leading separator. -/
def poly_str (components : List Int) : String :=
  if components.count 0 = components.length then "0"
  else strip_leading (string_form components)

/-- Embeds `Polynomial.__eq__` between two polynomials: the common prefixes
must coincide and the surplus tail of the longer list must be all zeros
(checked in the source by counting its zeros). -/
def poly_eq (a b : List Int) : Bool :=
  let min_length := min a.length b.length
  if a.take min_length ≠ b.take min_length then false
  else if a.length > b.length then
    decide ((a.drop min_length).count 0 = (a.drop min_length).length)
  else
    decide ((b.drop min_length).count 0 = (b.drop min_length).length)

/-- Embeds `Polynomial.__add__`: elementwise sums over the common degree
range (`range(highest_common_degree + 1)` in the source, i.e. up to the
shorter length), then the tail of the longer operand. -/
def poly_add (a b : List Int) : List Int :=
  let common_length := min a.length b.length
  ((List.range common_length).map (fun degree => b.getD degree 0 + a.getD degree 0)) ++
  (if b.length < a.length then a.drop common_length else b.drop common_length)

/-- Embeds `Polynomial.__pow__` for a natural exponent: starting from `[1]`,
multiply by the components `power` times. -/
def poly_pow (p : List Int) (power : Nat) : List Int :=
  (List.range power).foldl (fun result _ => multiply_components p result) [1]

/-- Embeds `Polynomial.__pow__` for an arbitrary integer exponent: the Python
loop `for _ in range(power)` runs `max(power, 0)` times, so a negative
exponent runs it zero times. -/
def poly_pow_int (p : List Int) (power : Int) : List Int :=
  (List.range power.toNat).foldl (fun result _ => multiply_components p result) [1]

/-- Modelled from the spec, section 4.7: the string of one term, omitting the
numeral exactly when the absolute coefficient is 1 and the degree is not 0. -/
def spec_term_string (degree : Nat) (coefficient : Int) : String :=
  (if coefficient > 0 then " + " else " - ") ++
  (if coefficient.natAbs = 1 ∧ degree ≠ 0 then "" else toString coefficient.natAbs) ++
  (if 2 ≤ degree then "x^" ++ toString degree else if degree = 1 then "x" else "")

/-- The nonzero terms of a components list as (degree, coefficient) pairs in
strictly descending degree order. -/
def spec_terms (components : List Int) : List (Nat × Int) :=
  components.enum.reverse.filter (fun p => p.2 ≠ 0)

/-- Modelled from the spec, section 4.7: join the rendered nonzero terms in
descending degree order, then strip the leading separator. -/
def spec_render (components : List Int) : String :=
  strip_leading (String.join ((spec_terms components).map (fun p => spec_term_string p.1 p.2)))

/-- Modelled from the spec, section 4.5: discrete convolution of coefficient
lists; the entry at index `t` accumulates `u[i] * v[j]` over all `i + j = t`. -/
def conv_spec (u v : List Int) : List Int :=
  (List.range (u.length + v.length - 1)).map (fun t =>
    ((List.range u.length).map (fun i =>
      ((List.range v.length).map (fun j =>
        if i + j = t then u.getD i 0 * v.getD j 0 else 0)).sum)).sum)

/-- Modelled from the spec, section 4.5: start from `[1]` and convolve with
the components of `p` exactly `n` times. -/
def conv_iter (p : List Int) : Nat → List Int
  | 0 => [1]
  | n + 1 => conv_spec (conv_iter p n) p

end IsjProj6

namespace IsjProj6

/-! Helper lemmas. -/

/-- Counting zeros in the source is the all-zero test. -/
theorem count_zero_eq_length_iff (l : List Int) :
    l.count 0 = l.length ↔ ∀ c ∈ l, c = 0 := by
  rw [List.count_eq_length]
  exact ⟨fun h c hc => (h c hc).symm, fun h c hc => (h c hc).symm⟩

/-- Unfolding of `poly_eq` with the local variable substituted. -/
theorem poly_eq_def (a b : List Int) :
    poly_eq a b =
      if a.take (min a.length b.length) ≠ b.take (min a.length b.length) then false
      else if a.length > b.length then
        decide ((a.drop (min a.length b.length)).count 0 =
          (a.drop (min a.length b.length)).length)
      else
        decide ((b.drop (min a.length b.length)).count 0 =
          (b.drop (min a.length b.length)).length) := rfl

/-- Unfolding of `poly_add` with the local variable substituted. -/
theorem poly_add_def (a b : List Int) :
    poly_add a b =
      ((List.range (min a.length b.length)).map
        (fun degree => b.getD degree 0 + a.getD degree 0)) ++
      (if b.length < a.length then a.drop (min a.length b.length)
       else b.drop (min a.length b.length)) := rfl

/-- Pointwise agreement of padded coefficients makes the common prefixes equal. -/
theorem take_min_eq_of_pointwise (a b : List Int)
    (h : ∀ i < max a.length b.length, a.getD i 0 = b.getD i 0) :
    a.take (min a.length b.length) = b.take (min a.length b.length) := by
  apply List.ext_getElem?
  intro i
  rcases Nat.lt_or_ge i (min a.length b.length) with hi | hi
  · rw [List.getElem?_take_of_lt hi, List.getElem?_take_of_lt hi]
    have hia : i < a.length := by omega
    have hib : i < b.length := by omega
    have heq := h i (by omega)
    rw [List.getD_eq_getElem a 0 hia, List.getD_eq_getElem b 0 hib] at heq
    rw [List.getElem?_eq_getElem hia, List.getElem?_eq_getElem hib, heq]
  · rw [List.getElem?_take_eq_none hi, List.getElem?_take_eq_none hi]

/-- With the shorter list equal to the prefix of the longer, the surplus tail
of the longer being all zeros is equivalent to pointwise agreement of the
zero-padded coefficient lists. -/
theorem tail_zero_iff_pointwise (a b : List Int) (hab : b.length ≤ a.length)
    (htake : a.take b.length = b.take b.length) :
    (∀ c ∈ a.drop b.length, c = 0) ↔ ∀ i < a.length, a.getD i 0 = b.getD i 0 := by
  constructor
  · intro hz i hi
    rcases Nat.lt_or_ge i b.length with hib | hib
    · have h1 : (a.take b.length)[i]? = (b.take b.length)[i]? := by rw [htake]
      rw [List.getElem?_take_of_lt hib, List.getElem?_take_of_lt hib] at h1
      simp only [List.getD_eq_getElem?_getD, h1]
    · have h0 : (a.drop b.length)[i - b.length]? = a[i]? := by
        rw [List.getElem?_drop]
        congr 1
        omega
      rw [List.getD_eq_getElem?_getD, List.getD_eq_getElem?_getD,
        List.getElem?_eq_none hib, ← h0]
      cases hsome : (a.drop b.length)[i - b.length]? with
      | none => rfl
      | some v =>
        have hv : v ∈ a.drop b.length := List.getElem?_mem hsome
        simp [hz v hv]
  · intro hall c hc
    obtain ⟨k, hk, hck⟩ := List.mem_iff_getElem.mp hc
    have hk2 : b.length + k < a.length := by
      simp only [List.length_drop] at hk
      omega
    have h1 := hall (b.length + k) hk2
    rw [List.getD_eq_getElem?_getD, List.getD_eq_getElem?_getD,
      List.getElem?_eq_none (Nat.le_add_right b.length k),
      ← List.getElem?_drop, List.getElem?_eq_getElem hk, hck] at h1
    simpa using h1

/-- The source equality test agrees with coefficientwise equality of the
zero-padded lists. -/
theorem poly_eq_true_iff (a b : List Int) :
    poly_eq a b = true ↔ ∀ i < max a.length b.length, a.getD i 0 = b.getD i 0 := by
  rw [poly_eq_def]
  rcases Nat.lt_or_ge b.length a.length with hgt | hle
  · rw [show min a.length b.length = b.length from by omega,
      show max a.length b.length = a.length from by omega]
    by_cases htake : a.take b.length = b.take b.length
    · rw [if_neg (not_not_intro htake), if_pos hgt, decide_eq_true_eq,
        count_zero_eq_length_iff]
      exact tail_zero_iff_pointwise a b (le_of_lt hgt) htake
    · rw [if_pos htake]
      simp only [Bool.false_eq_true, false_iff]
      intro hall
      apply htake
      have h := take_min_eq_of_pointwise a b (fun i hi => hall i (by omega))
      rwa [show min a.length b.length = b.length from by omega] at h
  · rw [show min a.length b.length = a.length from by omega,
      show max a.length b.length = b.length from by omega]
    by_cases htake : a.take a.length = b.take a.length
    · rw [if_neg (not_not_intro htake), if_neg (by omega : ¬ a.length > b.length),
        decide_eq_true_eq, count_zero_eq_length_iff,
        tail_zero_iff_pointwise b a hle htake.symm]
      constructor
      · exact fun h i hi => (h i hi).symm
      · exact fun h i hi => (h i hi).symm
    · rw [if_pos htake]
      simp only [Bool.false_eq_true, false_iff]
      intro hall
      apply htake
      have h := take_min_eq_of_pointwise a b (fun i hi => hall i (by omega))
      rwa [show min a.length b.length = a.length from by omega] at h

example : at_value [1, -3, 0, 2] 2 none = 11 := by
  norm_num [at_value, count_value, List.enum, List.enumFrom, List.foldl]
example : at_value [1, -3, 0, 2] 2 (some 3) = 35 := by
  norm_num [at_value, count_value, List.enum, List.enumFrom, List.foldl]
example : poly_str [1, -3, 0, 2] = "2x^3 - 3x + 1" := by decide
example : poly_str [1, 1, -1] = "- x^2 + x + 1" := by decide
example : poly_eq [1, 0, 1] [1, 0, 1, 0] = true := by decide
example : poly_eq [1, 0, 1] [1, 0, 1, 1] = false := by decide
example : derivative [1, -3, 0, 2] = [-3, 0, 6] := by decide
example : derivative [5] = [] := by decide
example : poly_pow [-1, 1] 3 = [-1, 3, -3, 1] := by decide
example : conv_iter [-1, 1] 3 = [-1, 3, -3, 1] := by decide
example : poly_str (poly_pow [-1, 1] 3) = "x^3 - 3x^2 + 3x - 1" := by decide
example : poly_add [1, -3, 0, 2] [0, 2, 1] = [1, -1, 1, 2] := by decide
example : init_from_kwargs [(0, 1), (3, 2), (1, -3)] = [1, -3, 0, 2] := by decide
example : poly_pow_int [1, -3, 0, 2] (-1) = [1] := by decide

/-! Lemmas about the derivative fold. -/

/-- Reading the slot just written by `set`. -/
theorem getD_set_self (l : List Int) (i : Nat) (v : Int) (h : i < l.length) :
    (l.set i v).getD i 0 = v := by
  rw [List.getD_eq_getElem?_getD, List.getElem?_set_self h]
  rfl

/-- Reading a slot other than the one written by `set`. -/
theorem getD_set_ne (l : List Int) (i j : Nat) (v : Int) (h : i ≠ j) :
    (l.set i v).getD j 0 = l.getD j 0 := by
  rw [List.getD_eq_getElem?_getD, List.getElem?_set_ne h, ← List.getD_eq_getElem?_getD]

/-- The derivative loop never changes the length of the result list. -/
theorem deriv_fold_length (l : List (Nat × Int)) (init : List Int) :
    (l.foldl
      (fun result p =>
        if p.1 = 0 then result else result.set (p.1 - 1) (p.2 * (p.1 : Int)))
      init).length = init.length := by
  induction l generalizing init with
  | nil => rfl
  | cons p l ih =>
    rw [List.foldl_cons]
    by_cases h : p.1 = 0
    · rw [if_pos h]
      exact ih init
    · rw [if_neg h, ih, List.length_set]

/-- Running the derivative loop over the components enumerated from a
positive start writes `coefficient * degree` into slot `degree - 1` for every
listed component and leaves every other slot of the initial list alone. -/
theorem deriv_fold_getD (l : List Int) :
    ∀ (k : Nat) (init : List Int), 1 ≤ k → k - 1 + l.length ≤ init.length →
      ∀ t : Nat,
        ((l.enumFrom k).foldl
          (fun result p =>
            if p.1 = 0 then result else result.set (p.1 - 1) (p.2 * (p.1 : Int)))
          init).getD t 0 =
        if k - 1 ≤ t ∧ t < k - 1 + l.length then
          l.getD (t - (k - 1)) 0 * ((t + 1 : Nat) : Int)
        else init.getD t 0 := by
  induction l with
  | nil =>
    intro k init hk hlen t
    simp only [List.enumFrom_nil, List.foldl_nil, List.length_nil]
    rw [if_neg (by omega)]
  | cons c l ih =>
    intro k init hk hlen t
    simp only [List.length_cons] at hlen
    simp only [List.enumFrom_cons, List.foldl_cons]
    rw [if_neg (by omega : ¬ k = 0)]
    rw [ih (k + 1) (init.set (k - 1) (c * (k : Int))) (by omega)
      (by rw [List.length_set]; omega) t]
    simp only [List.length_cons, Nat.add_sub_cancel]
    by_cases h1 : k ≤ t ∧ t < k + l.length
    · rw [if_pos h1, if_pos (by omega)]
      rw [show t - (k - 1) = (t - k) + 1 from by omega, List.getD_cons_succ]
    · rw [if_neg h1]
      by_cases h2 : k - 1 ≤ t ∧ t < k - 1 + (l.length + 1)
      · have ht : t = k - 1 := by omega
        rw [if_pos h2, ht, getD_set_self init (k - 1) (c * (k : Int)) (by omega)]
        rw [show k - 1 - (k - 1) = 0 from by omega, List.getD_cons_zero,
          show k - 1 + 1 = k from by omega]
      · rw [if_neg h2, getD_set_ne init (k - 1) t (c * (k : Int)) (by omega)]

/-- The derivative list is one shorter than the components list. -/
theorem derivative_length (components : List Int) :
    (derivative components).length = components.length - 1 := by
  rw [derivative, deriv_fold_length, List.length_replicate]

/-- The derivative coefficient at slot `d - 1` is the input coefficient at
degree `d` times `d`. -/
theorem derivative_getD (components : List Int) (d : Nat)
    (hd1 : 1 ≤ d) (hd2 : d < components.length) :
    (derivative components).getD (d - 1) 0 = components.getD d 0 * (d : Int) := by
  obtain ⟨e, rfl⟩ : ∃ e, d = e + 1 := ⟨d - 1, by omega⟩
  cases components with
  | nil => simp at hd2
  | cons c0 rest =>
    simp only [List.length_cons] at hd2
    have hstep : derivative (c0 :: rest) =
        (rest.enumFrom 1).foldl
          (fun result p =>
            if p.1 = 0 then result else result.set (p.1 - 1) (p.2 * (p.1 : Int)))
          (List.replicate ((c0 :: rest).length - 1) 0) := rfl
    rw [hstep, deriv_fold_getD rest 1 _ (by omega)
      (by rw [List.length_replicate]; simp only [List.length_cons]; omega) (e + 1 - 1)]
    simp only [Nat.add_sub_cancel, Nat.sub_self, Nat.zero_add, Nat.sub_zero]
    rw [if_pos (by omega), List.getD_cons_succ]

/-! Lemmas about the multiplication (convolution) folds. -/

/-- The accumulation step never changes the length. -/
theorem addAt_length (l : List Int) (i : Nat) (v : Int) :
    (addAt l i v).length = l.length :=
  List.length_set l i _

/-- Reading the accumulated slot. -/
theorem addAt_getD_self (l : List Int) (i : Nat) (v : Int) (h : i < l.length) :
    (addAt l i v).getD i 0 = l.getD i 0 + v :=
  getD_set_self l i _ h

/-- Reading any other slot. -/
theorem addAt_getD_ne (l : List Int) (i j : Nat) (v : Int) (h : i ≠ j) :
    (addAt l i v).getD j 0 = l.getD j 0 :=
  getD_set_ne l i j _ h

/-- A fold of `addAt` steps never changes the length. -/
theorem fold_addAt_length (l : List Nat) (g : Nat → Nat) (F : Nat → Int)
    (init : List Int) :
    (l.foldl (fun a i => addAt a (g i) (F i)) init).length = init.length := by
  induction l generalizing init with
  | nil => rfl
  | cons x l ih =>
    simp only [List.foldl_cons]
    rw [ih, addAt_length]

/-- The inner multiplication loop adds to slot `t` the sum of the
contributions whose target index is `t`. -/
theorem conv_inner_getD (K o t : Nat) (F : Nat → Int) :
    ∀ acc : List Int, (∀ i, i < K → o + i < acc.length) → t < acc.length →
      ((List.range K).foldl (fun a i => addAt a (o + i) (F i)) acc).getD t 0 =
        acc.getD t 0 + ((List.range K).map (fun i => if o + i = t then F i else 0)).sum := by
  induction K with
  | zero =>
    intro acc _ _
    simp
  | succ K ih =>
    intro acc hidx ht
    simp only [List.range_succ, List.foldl_append, List.foldl_cons, List.foldl_nil,
      List.map_append, List.map_cons, List.map_nil, List.sum_append, List.sum_cons,
      List.sum_nil]
    have hRlen : ((List.range K).foldl (fun a i => addAt a (o + i) (F i)) acc).length
        = acc.length := fold_addAt_length (List.range K) (fun i => o + i) F acc
    by_cases heq : o + K = t
    · subst heq
      rw [addAt_getD_self _ _ _ (by rw [hRlen]; exact ht)]
      rw [ih acc (fun i hi => hidx i (by omega)) ht, if_pos rfl]
      omega
    · rw [addAt_getD_ne _ _ _ _ heq]
      rw [ih acc (fun i hi => hidx i (by omega)) ht, if_neg heq]
      omega

/-- The double multiplication loop never changes the length. -/
theorem conv_outer_length (M K : Nat) (G : Nat → Nat → Int) (init : List Int) :
    ((List.range M).foldl
      (fun acc o => (List.range K).foldl (fun a i => addAt a (o + i) (G o i)) acc)
      init).length = init.length := by
  induction M with
  | zero => rfl
  | succ M ih =>
    simp only [List.range_succ, List.foldl_append, List.foldl_cons, List.foldl_nil]
    rw [fold_addAt_length, ih]

/-- The double multiplication loop accumulates, at slot `t`, the double sum
of the contributions whose target index is `t`. -/
theorem conv_outer_getD (M K t : Nat) (G : Nat → Nat → Int) :
    ∀ init : List Int, (∀ o i, o < M → i < K → o + i < init.length) →
      t < init.length →
      ((List.range M).foldl
        (fun acc o => (List.range K).foldl (fun a i => addAt a (o + i) (G o i)) acc)
        init).getD t 0 =
      init.getD t 0 +
        ((List.range M).map (fun o =>
          ((List.range K).map (fun i => if o + i = t then G o i else 0)).sum)).sum := by
  induction M with
  | zero =>
    intro init _ _
    simp
  | succ M ih =>
    intro init hidx ht
    simp only [List.range_succ, List.foldl_append, List.foldl_cons, List.foldl_nil,
      List.map_append, List.map_cons, List.map_nil, List.sum_append, List.sum_cons,
      List.sum_nil]
    have hRlen : ((List.range M).foldl
        (fun acc o => (List.range K).foldl (fun a i => addAt a (o + i) (G o i)) acc)
        init).length = init.length := conv_outer_length M K G init
    rw [conv_inner_getD K M t (G M) _
      (fun i hi => by rw [hRlen]; exact hidx M i (by omega) hi)
      (by rw [hRlen]; exact ht)]
    rw [ih init (fun o i ho hi => hidx o i (by omega) hi) ht]
    omega

/-- A list of zeros reads 0 at every index. -/
theorem getD_replicate_zero (n t : Nat) :
    (List.replicate n (0 : Int)).getD t 0 = 0 := by
  rw [List.getD_eq_getElem?_getD]
  rcases Nat.lt_or_ge t n with h | h
  · rw [List.getElem?_eq_getElem (by simpa using h)]
    simp
  · rw [List.getElem?_eq_none (by simpa using h)]
    rfl

/-- The length produced by `__multiply_components`. -/
theorem multiply_components_length (s b : List Int) :
    (multiply_components s b).length = s.length + b.length - 1 := by
  rw [show multiply_components s b =
      (List.range b.length).foldl
        (fun acc o => (List.range s.length).foldl
          (fun a i => addAt a (o + i) (b.getD o 0 * s.getD i 0)) acc)
        (List.replicate (s.length + b.length - 1) 0) from rfl,
    conv_outer_length, List.length_replicate]

/-- The entries produced by `__multiply_components`. -/
theorem multiply_components_getD (s b : List Int) (t : Nat)
    (ht : t < s.length + b.length - 1) :
    (multiply_components s b).getD t 0 =
      ((List.range b.length).map (fun o =>
        ((List.range s.length).map (fun i =>
          if o + i = t then b.getD o 0 * s.getD i 0 else 0)).sum)).sum := by
  have h : ((List.range b.length).foldl
        (fun acc o => (List.range s.length).foldl
          (fun a i => addAt a (o + i) (b.getD o 0 * s.getD i 0)) acc)
        (List.replicate (s.length + b.length - 1) 0)).getD t 0 =
      (List.replicate (s.length + b.length - 1) (0 : Int)).getD t 0 +
        ((List.range b.length).map (fun o =>
          ((List.range s.length).map (fun i =>
            if o + i = t then b.getD o 0 * s.getD i 0 else 0)).sum)).sum :=
    conv_outer_getD b.length s.length t (fun o i => b.getD o 0 * s.getD i 0)
      (List.replicate (s.length + b.length - 1) 0)
      (fun o i ho hi => by rw [List.length_replicate]; omega)
      (by rw [List.length_replicate]; exact ht)
  rw [show multiply_components s b =
      (List.range b.length).foldl
        (fun acc o => (List.range s.length).foldl
          (fun a i => addAt a (o + i) (b.getD o 0 * s.getD i 0)) acc)
        (List.replicate (s.length + b.length - 1) 0) from rfl,
    h, getD_replicate_zero]
  omega

/-- The length of the spec convolution. -/
theorem conv_spec_length (u v : List Int) :
    (conv_spec u v).length = u.length + v.length - 1 := by
  rw [conv_spec, List.length_map, List.length_range]

/-- The entries of the spec convolution. -/
theorem conv_spec_getD (u v : List Int) (t : Nat) (ht : t < u.length + v.length - 1) :
    (conv_spec u v).getD t 0 =
      ((List.range u.length).map (fun i =>
        ((List.range v.length).map (fun j =>
          if i + j = t then u.getD i 0 * v.getD j 0 else 0)).sum)).sum := by
  rw [conv_spec, List.getD_eq_getElem _ 0
    (by rw [List.length_map, List.length_range]; omega)]
  simp only [List.getElem_map, List.getElem_range]

/-- The method `__multiply_components` is the spec convolution of the base components
with the components of the polynomial. -/
theorem multiply_components_eq_conv_spec (s b : List Int) :
    multiply_components s b = conv_spec b s := by
  apply List.ext_getElem
  · rw [multiply_components_length, conv_spec_length]
    omega
  · intro i h1 h2
    have hb : i < s.length + b.length - 1 := by
      rw [multiply_components_length] at h1
      exact h1
    rw [← List.getD_eq_getElem _ 0 h1, ← List.getD_eq_getElem _ 0 h2,
      multiply_components_getD s b i hb, conv_spec_getD b s i (by omega)]

/-- One more round of the power loop multiplies once more. -/
theorem poly_pow_succ (p : List Int) (n : Nat) :
    poly_pow p (n + 1) = multiply_components p (poly_pow p n) := by
  simp only [poly_pow, List.range_succ, List.foldl_append, List.foldl_cons,
    List.foldl_nil]

/-- The method `__pow__` computes the iterated spec convolution. -/
theorem poly_pow_eq_conv_iter (p : List Int) (n : Nat) :
    poly_pow p n = conv_iter p n := by
  induction n with
  | zero => rfl
  | succ n ih =>
    rw [poly_pow_succ, ih]
    exact multiply_components_eq_conv_spec p (conv_iter p n)

/-- The length of a sum is the maximum of the operand lengths. -/
theorem poly_add_length (a b : List Int) :
    (poly_add a b).length = max a.length b.length := by
  rw [poly_add_def, List.length_append, List.length_map, List.length_range]
  by_cases h : b.length < a.length
  · rw [if_pos h]
    simp only [List.length_drop]
    omega
  · rw [if_neg h]
    simp only [List.length_drop]
    omega

/-- Every power of a nonempty components list is nonempty. -/
theorem poly_pow_length_pos (p : List Int) (hp : 1 ≤ p.length) (n : Nat) :
    1 ≤ (poly_pow p n).length := by
  induction n with
  | zero => exact Nat.le.refl
  | succ n ih =>
    rw [poly_pow_succ, multiply_components_length]
    omega

/-! Lemmas about string rendering. -/

/-- The printed term of the source agrees with the printed term modelled
from the spec wording. -/
theorem term_string_eq_spec (degree : Nat) (coefficient : Int) :
    term_string degree coefficient = spec_term_string degree coefficient := by
  rw [term_string, spec_term_string]
  have hB : (if coefficient.natAbs ≠ 1 ∨ degree = 0
        then toString coefficient.natAbs else "")
      = (if coefficient.natAbs = 1 ∧ degree ≠ 0
        then "" else toString coefficient.natAbs) := by
    by_cases h1 : coefficient.natAbs = 1 <;> by_cases h2 : degree = 0 <;>
      simp [h1, h2]
  have hC : (if degree > 1 then "x^" ++ toString degree
        else if degree = 1 then "x" else "")
      = (if 2 ≤ degree then "x^" ++ toString degree
        else if degree = 1 then "x" else "") :=
    if_congr (by omega) rfl rfl
  rw [hB, hC]

/-- Joining a list of strings distributes over `cons`. -/
theorem string_join_cons (s : String) (l : List String) :
    String.join (s :: l) = s ++ String.join l := by
  apply String.ext
  rw [String.join_eq, String.join_eq]
  simp

/-- The rendering loop of the source builds the join of the printed nonzero
terms after the accumulator. -/
theorem fold_terms_eq_join (l : List (Nat × Int)) :
    ∀ acc : String,
      l.foldl (fun a p => if p.2 = 0 then a else a ++ term_string p.1 p.2) acc =
        acc ++ String.join ((l.filter (fun p => p.2 ≠ 0)).map
          (fun p => term_string p.1 p.2)) := by
  induction l with
  | nil =>
    intro acc
    simp [String.join]
  | cons p l ih =>
    intro acc
    simp only [List.foldl_cons]
    by_cases h : p.2 = 0
    · rw [if_pos h, ih, List.filter_cons, if_neg (by simp [h])]
    · rw [if_neg h, ih, List.filter_cons, if_pos (by simp [h]), List.map_cons,
        string_join_cons, ← String.append_assoc]

/-- The degrees of the spec terms are strictly descending. -/
theorem spec_terms_pairwise (components : List Int) :
    (spec_terms components).Pairwise (fun p q => q.1 < p.1) := by
  have h1 : ((components.enum.map Prod.fst)).Pairwise (· < ·) := by
    rw [List.enum_map_fst components]
    exact List.pairwise_lt_range components.length
  have h2 : components.enum.Pairwise (fun p q : Nat × Int => p.1 < q.1) :=
    List.pairwise_map.mp h1
  have h3 : components.enum.reverse.Pairwise (fun p q : Nat × Int => q.1 < p.1) :=
    List.pairwise_reverse.mpr h2
  rw [spec_terms]
  exact List.Pairwise.sublist (List.filter_sublist _) h3

/-- For a polynomial with some nonzero coefficient the source rendering is
the spec rendering. -/
theorem poly_str_eq_spec_render (components : List Int)
    (h : ∃ c ∈ components, c ≠ 0) :
    poly_str components = spec_render components := by
  have hcount : ¬ components.count 0 = components.length := by
    intro hc
    obtain ⟨c, hcm, hc0⟩ := h
    exact hc0 ((count_zero_eq_length_iff components).mp hc c hcm)
  rw [poly_str, if_neg hcount, spec_render]
  congr 1
  rw [string_form, fold_terms_eq_join, String.empty_append, spec_terms]
  exact congrArg String.join
    (List.map_congr_left (fun p _ => term_string_eq_spec p.1 p.2))

/-! Claim theorems. -/

/-- Claim C1: for every polynomial and every pair of numbers, the
two-argument evaluation returns the value at the second argument minus the
value at the first; in particular for `[1,-3,0,2]` the value at 2 is 11 and
the two-argument form at (2, 3) is 35. -/
theorem claim_C1 :
    (∀ (components : List Int) (x1 x2 : ℚ),
      at_value components x1 (some x2) =
        at_value components x2 none - at_value components x1 none) ∧
    at_value [1, -3, 0, 2] 2 none = 11 ∧
    at_value [1, -3, 0, 2] 2 (some 3) = 35 := by
  refine ⟨fun components x1 x2 => rfl, ?_, ?_⟩ <;>
    norm_num [at_value, count_value, List.enum, List.enumFrom, List.foldl]

/-- Claim C2: a polynomial with some nonzero coefficient renders as the
spec rendering: nonzero terms joined in strictly descending degree order,
zero terms skipped, the numeral omitted exactly when the absolute
coefficient is 1 at positive degree; and the two concrete examples render
exactly as stated. -/
theorem claim_C2 :
    (∀ components : List Int, (∃ c ∈ components, c ≠ 0) →
      poly_str components = spec_render components ∧
      (spec_terms components).Pairwise (fun p q => q.1 < p.1)) ∧
    poly_str [1, -3, 0, 2] = "2x^3 - 3x + 1" ∧
    poly_str [1, 1, -1] = "- x^2 + x + 1" :=
  ⟨fun components h => ⟨poly_str_eq_spec_render components h, spec_terms_pairwise components⟩,
   by decide, by decide⟩

/-- Witness for claim C2 at a concrete input. -/
theorem claim_C2_witness :
    poly_str [1, 1, -1] = spec_render [1, 1, -1] ∧
    (spec_terms [1, 1, -1]).Pairwise (fun p q => q.1 < p.1) :=
  claim_C2.1 [1, 1, -1] (by decide)

/-- Claim C3: two polynomials are equal exactly when the zero-padded
coefficient lists match pointwise up to the longer length; in particular
`[1,0,1]` equals `[1,0,1,0]` but not `[1,0,1,1]`. -/
theorem claim_C3 :
    (∀ a b : List Int, poly_eq a b = true ↔
      ∀ i < max a.length b.length, a.getD i 0 = b.getD i 0) ∧
    poly_eq [1, 0, 1] [1, 0, 1, 0] = true ∧
    poly_eq [1, 0, 1] [1, 0, 1, 1] = false :=
  ⟨poly_eq_true_iff, by decide, by decide⟩

/-- Witness for claim C3 at a concrete input. -/
theorem claim_C3_witness :
    ([1, 0, 1] : List Int).getD 3 0 = ([1, 0, 1, 0] : List Int).getD 3 0 :=
  (claim_C3.1 [1, 0, 1] [1, 0, 1, 0]).mp (by decide) 3 (by decide)

/-- Claim C7: a polynomial all of whose coefficients are zero renders as the
string of a single zero, whatever the length of its components. -/
theorem claim_C7 :
    ∀ components : List Int, (∀ c ∈ components, c = 0) → poly_str components = "0" := by
  intro components h
  have hc : components.count 0 = components.length :=
    (count_zero_eq_length_iff components).mpr h
  simp [poly_str, hc]

/-- Witness for claim C7 at a concrete input. -/
theorem claim_C7_witness : poly_str [0, 0, 0, 0] = "0" :=
  claim_C7 [0, 0, 0, 0] (by decide)

/-- Claim C10: the derivative of a polynomial with exactly one component has
an empty components list, which still compares equal to the polynomial `[0]`
and renders as the string of a single zero. -/
theorem claim_C10 :
    ∀ components : List Int, components.length = 1 →
      derivative components = [] ∧
      poly_eq (derivative components) [0] = true ∧
      poly_str (derivative components) = "0" := by
  intro components h
  obtain ⟨c, rfl⟩ := List.length_eq_one.mp h
  have hd : derivative [c] = [] := rfl
  rw [hd]
  exact ⟨rfl, by decide, by decide⟩

/-- Claim C4: the sum has length the maximum of the operand lengths, holds
the elementwise sums on the overlapping degrees, and copies the remaining
higher-degree coefficients from the longer operand unmodified. -/
theorem claim_C4 :
    ∀ a b : List Int,
      (poly_add a b).length = max a.length b.length ∧
      (∀ i < min a.length b.length,
        (poly_add a b).getD i 0 = a.getD i 0 + b.getD i 0) ∧
      (∀ i, min a.length b.length ≤ i → i < max a.length b.length →
        (poly_add a b).getD i 0 = (if b.length < a.length then a else b).getD i 0) := by
  intro a b
  refine ⟨poly_add_length a b, ?_, ?_⟩
  · intro i hi
    rw [poly_add_def,
      List.getD_append _ _ _ _ (by simp only [List.length_map, List.length_range]; omega),
      List.getD_eq_getElem _ _ (by simp only [List.length_map, List.length_range]; omega)]
    simp only [List.getElem_map, List.getElem_range]
    omega
  · intro i h1 h2
    by_cases h : b.length < a.length
    · rw [if_pos h, poly_add_def, if_pos h,
        List.getD_append_right _ _ _ _
          (by simp only [List.length_map, List.length_range]; omega)]
      simp only [List.length_map, List.length_range]
      rw [List.getD_eq_getElem?_getD, List.getD_eq_getElem?_getD, List.getElem?_drop]
      congr 2
      omega
    · rw [if_neg h, poly_add_def, if_neg h,
        List.getD_append_right _ _ _ _
          (by simp only [List.length_map, List.length_range]; omega)]
      simp only [List.length_map, List.length_range]
      rw [List.getD_eq_getElem?_getD, List.getD_eq_getElem?_getD, List.getElem?_drop]
      congr 2
      omega

/-- Witness for claim C4 at a concrete input. -/
theorem claim_C4_witness :
    (poly_add [1, -3, 0, 2] [0, 2, 1]).getD 1 0 =
      ([1, -3, 0, 2] : List Int).getD 1 0 + ([0, 2, 1] : List Int).getD 1 0 ∧
    (poly_add [1, -3, 0, 2] [0, 2, 1]).getD 3 0 =
      (if ([0, 2, 1] : List Int).length < ([1, -3, 0, 2] : List Int).length
        then ([1, -3, 0, 2] : List Int) else [0, 2, 1]).getD 3 0 :=
  ⟨(claim_C4 [1, -3, 0, 2] [0, 2, 1]).2.1 1 (by decide),
   (claim_C4 [1, -3, 0, 2] [0, 2, 1]).2.2 3 (by decide) (by decide)⟩

/-- Claim C5: the power operator computes the iterated spec convolution,
starting from the one-element list `[1]` and convolving with the components
exactly `n` times, the convolution of lengths `m` and `k` having length
`m + k - 1` with entry `i + j` accumulating the products; the zeroth power
is exactly `[1]`. -/
theorem claim_C5 :
    (∀ (p : List Int) (n : Nat), poly_pow p n = conv_iter p n) ∧
    (∀ u v : List Int, (conv_spec u v).length = u.length + v.length - 1) ∧
    ∀ p : List Int, poly_pow p 0 = [1] :=
  ⟨poly_pow_eq_conv_iter, conv_spec_length, fun _ => rfl⟩

/-- Claim C6: for components of length at least 2 the derivative list is one
element shorter and its slot `d - 1` holds `d` times the input coefficient at
degree `d` for every positive degree `d`; and the derivative of a length-1
polynomial equals the polynomial `[0]`. -/
theorem claim_C6 :
    (∀ components : List Int, 2 ≤ components.length →
      (derivative components).length = components.length - 1 ∧
      ∀ d, 1 ≤ d → d < components.length →
        (derivative components).getD (d - 1) 0 = (d : Int) * components.getD d 0) ∧
    ∀ c : Int, poly_eq (derivative [c]) [0] = true := by
  constructor
  · intro components _
    refine ⟨derivative_length components, fun d h1 hd => ?_⟩
    rw [derivative_getD components d h1 hd, Int.mul_comm]
  · intro c
    have hd : derivative [c] = [] := rfl
    rw [hd]
    decide

/-- Witness for claim C6 at a concrete input. -/
theorem claim_C6_witness :
    (derivative [1, -3, 0, 2]).length = 3 ∧
    (derivative [1, -3, 0, 2]).getD 2 0 = (3 : Int) * ([1, -3, 0, 2] : List Int).getD 3 0 ∧
    poly_eq (derivative [5]) [0] = true :=
  ⟨(claim_C6.1 [1, -3, 0, 2] (by decide)).1,
   (claim_C6.1 [1, -3, 0, 2] (by decide)).2 3 (by decide) (by decide),
   claim_C6.2 5⟩

/-- Claim C8 counterexample: the length invariant is not preserved by every
operation: the polynomial `[0]` has length 1, yet its derivative has empty
components; likewise constructing from the empty dense list keeps the empty
list. -/
theorem claim_C8_counterexample :
    1 ≤ ([0] : List Int).length ∧
    ¬ 1 ≤ (derivative [0]).length ∧
    init_from_list ([] : List Int) = [] := by decide

/-- Claim C8 as amended: construction from at least one variadic argument,
from a keyword mapping, or from no arguments yields components of length at
least 1, while dense-list construction returns exactly the given list;
addition and power preserve positive length, and derivative preserves it
exactly when the input has length at least 2. -/
theorem claim_C8_amended :
    (∀ args : List Int, args ≠ [] → 1 ≤ (init_from_args args).length) ∧
    (∀ kwargs : List (Nat × Int), 1 ≤ (init_from_kwargs kwargs).length) ∧
    1 ≤ init_default.length ∧
    (∀ l : List Int, init_from_list l = l) ∧
    (∀ a b : List Int, 1 ≤ a.length → 1 ≤ (poly_add a b).length) ∧
    (∀ (p : List Int) (n : Nat), 1 ≤ p.length → 1 ≤ (poly_pow p n).length) ∧
    (∀ components : List Int, 2 ≤ components.length →
      1 ≤ (derivative components).length) := by
  refine ⟨?_, ?_, ?_, ?_, ?_, ?_, ?_⟩
  · intro args h
    exact List.length_pos.mpr h
  · intro kwargs
    simp only [init_from_kwargs, List.length_map, List.length_range]
    omega
  · decide
  · intro l
    rfl
  · intro a b ha
    rw [poly_add_length]
    omega
  · intro p n hp
    exact poly_pow_length_pos p hp n
  · intro components h
    rw [derivative_length]
    omega

/-- Witness for the amended claim C8 at concrete inputs. -/
theorem claim_C8_amended_witness :
    1 ≤ (init_from_args [7]).length ∧
    1 ≤ (poly_add [1, 2] [3]).length ∧
    1 ≤ (poly_pow [1, 2] 3).length ∧
    1 ≤ (derivative [1, 2, 3]).length :=
  ⟨claim_C8_amended.1 [7] (by decide),
   claim_C8_amended.2.2.2.2.1 [1, 2] [3] (by decide),
   claim_C8_amended.2.2.2.2.2.1 [1, 2] 3 (by decide),
   claim_C8_amended.2.2.2.2.2.2 [1, 2, 3] (by decide)⟩

/-- Claim C9 counterexample: raising to a negative exponent does not signal
any error; the source loop body runs zero times and a plain polynomial `[1]`
is returned. -/
theorem claim_C9_counterexample : poly_pow_int [1, -3, 0, 2] (-1) = [1] := by decide

/-- Claim C9 as amended: for every polynomial and every negative exponent,
the power operator silently returns the identity polynomial `[1]` instead of
failing fast. -/
theorem claim_C9_amended :
    ∀ (p : List Int) (n : Int), n < 0 → poly_pow_int p n = [1] := by
  intro p n hn
  have h0 : n.toNat = 0 := Int.toNat_eq_zero.mpr (le_of_lt hn)
  simp [poly_pow_int, h0]

/-- Witness for the amended claim C9 at a concrete input. -/
theorem claim_C9_amended_witness : poly_pow_int [1, -3, 0, 2] (-5) = [1] :=
  claim_C9_amended [1, -3, 0, 2] (-5) (by decide)

/-- Witness for claim C10 at a concrete input. -/
theorem claim_C10_witness :
    derivative [5] = [] ∧
      poly_eq (derivative [5]) [0] = true ∧
      poly_str (derivative [5]) = "0" :=
  claim_C10 [5] rfl

end IsjProj6
